import Mathlib

/-!
Verification of the profile-store and account-field reconciliation engine
of the `claudectx` command-line tool (src/profiles.rs, src/config.rs).

Shallow embedding conventions:
* JSON documents (`serde_json::Value`) are modelled by the inductive `Json`;
  objects are association lists of key/value pairs with unique keys, mirroring
  `serde_json::Map`.  `Map::get` / `Map::insert` / `Map::remove` are modelled
  by `alGet` / `alInsert` / `alRemove` on association lists (insert replaces
  the value in place when the key is present; remove drops the key's binding).
* Rust `String`s that undergo character-level processing (profile names,
  file names) are modelled as `List Nat` of Unicode scalar values, the exact
  sequence produced by Rust's `str::chars()`.  `str` converts a Lean string
  literal to this representation for concrete instances.
* Numbers inside JSON are modelled as `Int`; no claim depends on numeric
  representation details.
-/

/-- JSON values, mirroring `serde_json::Value`.  Objects are association
lists with unique keys (`serde_json::Map`). -/
inductive Json where
  | null : Json
  | bool (b : Bool) : Json
  | num (n : Int) : Json
  | str (s : String) : Json
  | arr (elems : List Json) : Json
  | obj (entries : List (String × Json)) : Json

section AssocList

variable {κ ν : Type} [DecidableEq κ]

/-- `Map::get`: first binding of the key (keys are unique in a map). -/
def alGet : List (κ × ν) → κ → Option ν
  | [], _ => none
  | (k, v) :: rest, key => if k = key then some v else alGet rest key

/-- `Map::insert`: replace the value in place when the key is present,
append the new binding otherwise. -/
def alInsert : List (κ × ν) → κ → ν → List (κ × ν)
  | [], key, value => [(key, value)]
  | (k, v) :: rest, key, value =>
    if k = key then (k, value) :: rest else (k, v) :: alInsert rest key value

/-- `Map::remove`: drop the key's binding (keys are unique in a map, so
filtering the key out coincides with removing its single binding). -/
def alRemove (l : List (κ × ν)) (key : κ) : List (κ × ν) :=
  l.filter (fun p => p.1 ≠ key)

theorem alGet_alInsert_self (l : List (κ × ν)) (k : κ) (v : ν) :
    alGet (alInsert l k v) k = some v := by
  induction l with
  | nil => simp [alGet, alInsert]
  | cons hd tl ih =>
    obtain ⟨k', v'⟩ := hd
    by_cases h : k' = k
    · simp [alGet, alInsert, h]
    · simp [alGet, alInsert, h, ih]

theorem alRemove_cons_self {k : κ} (k₀ : κ) (v₀ : ν) (tl : List (κ × ν)) (hk : k₀ = k) :
    alRemove ((k₀, v₀) :: tl) k = alRemove tl k := by
  simp [alRemove, hk]

theorem alRemove_cons_ne {k : κ} (k₀ : κ) (v₀ : ν) (tl : List (κ × ν)) (hk : k₀ ≠ k) :
    alRemove ((k₀, v₀) :: tl) k = (k₀, v₀) :: alRemove tl k := by
  simp [alRemove, hk]

theorem alGet_alInsert_ne (l : List (κ × ν)) {k k' : κ} (v : ν) (h : k ≠ k') :
    alGet (alInsert l k v) k' = alGet l k' := by
  induction l with
  | nil => simp [alGet, alInsert, h]
  | cons hd tl ih =>
    obtain ⟨k₀, v₀⟩ := hd
    by_cases hk : k₀ = k
    · subst hk
      simp [alGet, alInsert, h]
    · by_cases hk' : k₀ = k'
      · simp [alGet, alInsert, hk, hk', Ne.symm h]
      · simp [alGet, alInsert, hk, hk', ih]

theorem alGet_alRemove_self (l : List (κ × ν)) (k : κ) :
    alGet (alRemove l k) k = none := by
  induction l with
  | nil => rfl
  | cons hd tl ih =>
    obtain ⟨k₀, v₀⟩ := hd
    by_cases hk : k₀ = k
    · rw [alRemove_cons_self k₀ v₀ tl hk]
      exact ih
    · rw [alRemove_cons_ne k₀ v₀ tl hk]
      simp [alGet, hk, ih]

theorem alGet_alRemove_ne (l : List (κ × ν)) {k k' : κ} (h : k ≠ k') :
    alGet (alRemove l k) k' = alGet l k' := by
  induction l with
  | nil => rfl
  | cons hd tl ih =>
    obtain ⟨k₀, v₀⟩ := hd
    by_cases hk : k₀ = k
    · rw [alRemove_cons_self k₀ v₀ tl hk, ih]
      have hne : k₀ ≠ k' := by rw [hk]; exact h
      simp [alGet, hne]
    · rw [alRemove_cons_ne k₀ v₀ tl hk]
      by_cases hk' : k₀ = k'
      · simp [alGet, hk']
      · simp [alGet, hk', ih]

theorem alInsert_of_alGet_eq (l : List (κ × ν)) {k : κ} {v : ν}
    (h : alGet l k = some v) : alInsert l k v = l := by
  induction l with
  | nil => simp [alGet] at h
  | cons hd tl ih =>
    obtain ⟨k₀, v₀⟩ := hd
    by_cases hk : k₀ = k
    · simp only [alGet, if_pos hk] at h
      obtain rfl : v₀ = v := Option.some.inj h
      simp [alInsert, hk]
    · simp only [alGet, if_neg hk] at h
      simp [alInsert, hk, ih h]

theorem alRemove_of_alGet_eq_none (l : List (κ × ν)) {k : κ}
    (h : alGet l k = none) : alRemove l k = l := by
  induction l with
  | nil => rfl
  | cons hd tl ih =>
    obtain ⟨k₀, v₀⟩ := hd
    by_cases hk : k₀ = k
    · simp [alGet, hk] at h
    · simp only [alGet, if_neg hk] at h
      rw [alRemove_cons_ne k₀ v₀ tl hk, ih h]

end AssocList

/-- The eight account-specific top-level keys (`ACCOUNT_SPECIFIC_FIELDS`). -/
def ACCOUNT_SPECIFIC_FIELDS : List String :=
  ["oauthAccount", "userID", "groveConfigCache", "cachedChromeExtensionInstalled",
   "subscriptionNoticeCount", "s1mAccessCache", "recommendedSubscription",
   "hasAvailableSubscription"]

/-- `serde_json::Value::get` on a key: object lookup, `none` on non-objects. -/
def jsonGet : Json → String → Option Json
  | .obj entries, key => alGet entries key
  | _, _ => none

/-- `extract_account_fields`: keep only the account-specific keys of an
object; return the empty object on non-object input. -/
def extract_account_fields (config : Json) : Json :=
  match config with
  | .obj obj =>
    .obj (ACCOUNT_SPECIFIC_FIELDS.foldl
      (fun result field =>
        match alGet obj field with
        | some value => alInsert result field value
        | none => result)
      [])
  | _ => .obj []

/-- `patch_account_fields`: overwrite the account-specific keys of `config`
with the values from `profile`; keys absent from `profile` are removed from
`config`.  No-op unless both arguments are objects. -/
def patch_account_fields (config profile : Json) : Json :=
  match config, profile with
  | .obj config_obj, .obj profile_obj =>
    .obj (ACCOUNT_SPECIFIC_FIELDS.foldl
      (fun acc field =>
        match alGet profile_obj field with
        | some value => alInsert acc field value
        | none => alRemove acc field)
      config_obj)
  | _, _ => config

/-- `Value::as_str`. -/
def jsonAsStr : Json → Option String
  | .str s => some s
  | _ => none

/-- `get_account_uuid`: `config.get("oauthAccount")?.get("accountUuid")?.as_str()`. -/
def get_account_uuid (config : Json) : Option String :=
  (jsonGet config "oauthAccount").bind fun account =>
    (jsonGet account "accountUuid").bind jsonAsStr

/-! ### Profile name slugification (`slugify`)

Rust strings under character-level processing are modelled as lists of
Unicode scalar values (`List Nat`), exactly the sequence `str::chars()`
yields.  `str` converts a Lean string literal to that representation. -/

/-- Unicode scalar values of a string literal. -/
def str (s : String) : List Nat :=
  s.data.map Char.toNat

/-- `char::is_ascii_alphanumeric`. -/
def is_ascii_alphanumeric (c : Nat) : Bool :=
  decide ((48 ≤ c ∧ c ≤ 57) ∨ (65 ≤ c ∧ c ≤ 90) ∨ (97 ≤ c ∧ c ≤ 122))

/-- `char::to_ascii_lowercase`. -/
def to_ascii_lowercase (c : Nat) : Nat :=
  if 65 ≤ c ∧ c ≤ 90 then c + 32 else c

/-- The per-character map of `slugify`: ASCII alphanumerics are lowercased,
every other character becomes a dash (codepoint 45). -/
def slugChar (c : Nat) : Nat :=
  if is_ascii_alphanumeric c then to_ascii_lowercase c else 45

/-- `slugify`: map every character, split on dashes, drop empty fragments,
join the rest with single dashes. -/
def slugify (name : List Nat) : List Nat :=
  List.intercalate [45]
    (((name.map slugChar).splitOn 45).filter (fun s => !s.isEmpty))

theorem slugChar_slugChar (c : Nat) : slugChar (slugChar c) = slugChar c := by
  by_cases h2 : 65 ≤ c ∧ c ≤ 90
  · have hc : slugChar c = c + 32 := by
      rw [slugChar, if_pos (by simp only [is_ascii_alphanumeric, decide_eq_true_eq]; omega),
        to_ascii_lowercase, if_pos h2]
    rw [hc, slugChar, if_pos (by simp only [is_ascii_alphanumeric, decide_eq_true_eq]; omega),
      to_ascii_lowercase, if_neg (by omega)]
  · by_cases h1 : (48 ≤ c ∧ c ≤ 57) ∨ (97 ≤ c ∧ c ≤ 122)
    · have hc : slugChar c = c := by
        rw [slugChar, if_pos (by simp only [is_ascii_alphanumeric, decide_eq_true_eq]; omega),
          to_ascii_lowercase, if_neg h2]
      rw [hc]
      exact hc
    · have hc : slugChar c = 45 := by
        rw [slugChar, if_neg (by simp only [is_ascii_alphanumeric, decide_eq_true_eq]; omega)]
      rw [hc]
      decide

/-- Every element of every fragment produced by `splitOnP` fails the
predicate and comes from the original list. -/
theorem mem_of_mem_splitOnP {α : Type} {p : α → Bool} :
    ∀ {xs part : List α} {c : α},
      part ∈ xs.splitOnP p → c ∈ part → p c = false ∧ c ∈ xs := by
  intro xs
  induction xs with
  | nil =>
    intro part c hp hc
    rw [List.splitOnP_nil, List.mem_singleton] at hp
    subst hp
    simp at hc
  | cons hd tl ih =>
    intro part c hp hc
    rw [List.splitOnP_cons] at hp
    by_cases h : p hd = true
    · rw [if_pos h] at hp
      rcases List.mem_cons.mp hp with h1 | h1
      · subst h1
        simp at hc
      · obtain ⟨h2, h3⟩ := ih h1 hc
        exact ⟨h2, List.mem_cons_of_mem _ h3⟩
    · rw [if_neg h] at hp
      obtain ⟨hd', tl', heq⟩ : ∃ hd' tl', tl.splitOnP p = hd' :: tl' := by
        cases htl : tl.splitOnP p with
        | nil => exact absurd htl (List.splitOnP_ne_nil p tl)
        | cons a b => exact ⟨a, b, rfl⟩
      rw [heq] at hp
      simp only [List.modifyHead] at hp
      rcases List.mem_cons.mp hp with h1 | h1
      · subst h1
        rcases List.mem_cons.mp hc with rfl | hc'
        · exact ⟨Bool.of_not_eq_true h, List.mem_cons_self _ _⟩
        · obtain ⟨h2, h3⟩ := ih (heq ▸ List.mem_cons_self hd' tl') hc'
          exact ⟨h2, List.mem_cons_of_mem _ h3⟩
      · obtain ⟨h2, h3⟩ := ih (heq ▸ List.mem_cons_of_mem _ h1) hc
        exact ⟨h2, List.mem_cons_of_mem _ h3⟩

/-- Mapping a function that fixes the separator and every fragment over an
intercalated list is the identity. -/
theorem map_intercalate_fixed {f : Nat → Nat} {sep : Nat} (hsep : f sep = sep) :
    ∀ ls : List (List Nat), (∀ part ∈ ls, part.map f = part) →
      (List.intercalate [sep] ls).map f = List.intercalate [sep] ls := by
  intro ls
  induction ls with
  | nil => intro _; rfl
  | cons hd tl ih =>
    intro h
    cases tl with
    | nil =>
      have hone : List.intercalate [sep] [hd] = hd := by
        simp [List.intercalate]
      rw [hone]
      exact h hd (List.mem_cons_self _ _)
    | cons hd2 tl2 =>
      have hexp : List.intercalate [sep] (hd :: hd2 :: tl2)
          = hd ++ [sep] ++ List.intercalate [sep] (hd2 :: tl2) := by
        simp [List.intercalate, List.intersperse_cons_cons]
      rw [hexp, List.map_append, List.map_append,
        ih (fun p hp => h p (List.mem_cons_of_mem _ hp)),
        h hd (List.mem_cons_self _ _)]
      simp [hsep]

/-- `slugify` is the identity on any dash-joined list of fragments that are
nonempty, dash-free and fixed by the character map. -/
theorem slugify_eq_of_parts (parts : List (List Nat))
    (hne : ∀ part ∈ parts, part ≠ [])
    (hno45 : ∀ part ∈ parts, 45 ∉ part)
    (hfix : ∀ part ∈ parts, part.map slugChar = part) :
    slugify (List.intercalate [45] parts) = List.intercalate [45] parts := by
  unfold slugify
  rw [map_intercalate_fixed (by decide) parts hfix]
  cases parts with
  | nil => rfl
  | cons h1 t1 =>
    rw [List.splitOn_intercalate (h1 :: t1) 45 hno45 (List.cons_ne_nil _ _),
      List.filter_eq_self.mpr (fun part hpart => by simpa using hne part hpart)]

theorem slugify_idem (x : List Nat) : slugify (slugify x) = slugify x := by
  have hchar : ∀ part ∈ ((x.map slugChar).splitOn 45).filter (fun s => !s.isEmpty),
      ∀ c ∈ part, slugChar c = c ∧ c ≠ 45 := by
    intro part hpart c hc
    have hpart' : part ∈ (x.map slugChar).splitOnP (· == 45) := (List.mem_filter.mp hpart).1
    obtain ⟨hpf, hmem⟩ := mem_of_mem_splitOnP hpart' hc
    refine ⟨?_, by simpa using hpf⟩
    obtain ⟨c₀, _, rfl⟩ := List.mem_map.mp hmem
    exact slugChar_slugChar c₀
  have hne : ∀ part ∈ ((x.map slugChar).splitOn 45).filter (fun s => !s.isEmpty),
      part ≠ [] := by
    intro part hp
    have := (List.mem_filter.mp hp).2
    simpa using this
  have hno45 : ∀ part ∈ ((x.map slugChar).splitOn 45).filter (fun s => !s.isEmpty),
      45 ∉ part := fun part hp hc => (hchar part hp 45 hc).2 rfl
  have hfix : ∀ part ∈ ((x.map slugChar).splitOn 45).filter (fun s => !s.isEmpty),
      part.map slugChar = part := by
    intro part hp
    calc part.map slugChar = part.map id :=
          List.map_congr_left (fun c hc => (hchar part hp c hc).1)
      _ = part := List.map_id part
  exact slugify_eq_of_parts _ hne hno45 hfix

/-! ### Properties of `patch_account_fields` and `extract_account_fields` -/

theorem patch_foldl_alGet (pobj : List (String × Json)) (fields : List String)
    (acc : List (String × Json)) (k : String) :
    alGet (fields.foldl (fun acc field =>
        match alGet pobj field with
        | some value => alInsert acc field value
        | none => alRemove acc field) acc) k
      = if k ∈ fields then alGet pobj k else alGet acc k := by
  induction fields generalizing acc with
  | nil => simp
  | cons f rest ih =>
    rw [List.foldl_cons, ih]
    by_cases hk : k ∈ rest
    · rw [if_pos hk, if_pos (List.mem_cons_of_mem f hk)]
    · by_cases hf : k = f
      · subst hf
        have hstep : alGet (match alGet pobj k with
            | some value => alInsert acc k value
            | none => alRemove acc k) k = alGet pobj k := by
          cases hpv : alGet pobj k with
          | none => simp [alGet_alRemove_self]
          | some v => simp [alGet_alInsert_self]
        rw [if_neg hk, if_pos (List.mem_cons_self _ _), hstep]
      · have hnotin : k ∉ f :: rest := by
          intro hmem
          rcases List.mem_cons.mp hmem with h | h
          · exact hf h
          · exact hk h
        have hstep : alGet (match alGet pobj f with
            | some value => alInsert acc f value
            | none => alRemove acc f) k = alGet acc k := by
          cases hpv : alGet pobj f with
          | none => simp [alGet_alRemove_ne acc (fun he => hf he.symm)]
          | some v => simp [alGet_alInsert_ne acc v (fun he => hf he.symm)]
        rw [if_neg hk, if_neg hnotin, hstep]

theorem patch_foldl_fix (pobj : List (String × Json)) (fields : List String)
    (acc : List (String × Json)) (h : ∀ f ∈ fields, alGet acc f = alGet pobj f) :
    fields.foldl (fun acc field =>
        match alGet pobj field with
        | some value => alInsert acc field value
        | none => alRemove acc field) acc = acc := by
  induction fields with
  | nil => rfl
  | cons f rest ih =>
    rw [List.foldl_cons]
    have hstep : (match alGet pobj f with
        | some value => alInsert acc f value
        | none => alRemove acc f) = acc := by
      cases hpv : alGet pobj f with
      | none =>
        have := h f (List.mem_cons_self _ _)
        rw [hpv] at this
        simpa using alRemove_of_alGet_eq_none acc this
      | some v =>
        have := h f (List.mem_cons_self _ _)
        rw [hpv] at this
        simpa using alInsert_of_alGet_eq acc this
    rw [hstep]
    exact ih (fun g hg => h g (List.mem_cons_of_mem _ hg))

theorem patch_obj_eq (cfg prof : List (String × Json)) :
    patch_account_fields (.obj cfg) (.obj prof)
      = .obj (ACCOUNT_SPECIFIC_FIELDS.foldl (fun acc field =>
          match alGet prof field with
          | some value => alInsert acc field value
          | none => alRemove acc field) cfg) := rfl

theorem extract_foldl_alGet (obj : List (String × Json)) (fields : List String)
    (acc : List (String × Json)) (k : String) :
    alGet (fields.foldl (fun result field =>
        match alGet obj field with
        | some value => alInsert result field value
        | none => result) acc) k
      = if k ∈ fields ∧ (alGet obj k).isSome then alGet obj k else alGet acc k := by
  induction fields generalizing acc with
  | nil => simp
  | cons f rest ih =>
    rw [List.foldl_cons, ih]
    by_cases h1 : k ∈ rest ∧ (alGet obj k).isSome
    · rw [if_pos h1, if_pos ⟨List.mem_cons_of_mem f h1.1, h1.2⟩]
    · rw [if_neg h1]
      by_cases hf : k = f
      · subst hf
        cases hv : alGet obj k with
        | some v =>
          rw [if_pos ⟨List.mem_cons_self _ _, by simp⟩]
          try exact alGet_alInsert_self acc k v
        | none =>
          rw [if_neg (by simp)]
      · have hstep : alGet (match alGet obj f with
            | some value => alInsert acc f value
            | none => acc) k = alGet acc k := by
          cases hv : alGet obj f with
          | some v => simp [alGet_alInsert_ne acc v (fun he => hf he.symm)]
          | none => simp
        rw [hstep, if_neg (by
          intro hcon
          rcases List.mem_cons.mp hcon.1 with h | h
          · exact hf h
          · exact h1 ⟨h, hcon.2⟩)]

theorem extract_obj_eq (o : List (String × Json)) :
    extract_account_fields (.obj o)
      = .obj (ACCOUNT_SPECIFIC_FIELDS.foldl (fun result field =>
          match alGet o field with
          | some value => alInsert result field value
          | none => result) []) := rfl

/-! ### Filesystem model

File contents of JSON-bearing files are either a well-formed document or
malformed text; `serde_json::from_str` succeeds exactly on the former.
The live config path may be absent, a regular file, or a symlink whose
target holds the given content; the profile directory may be absent,
unreadable (a fatal `read_dir` failure), or present with named entries.
Serialize-then-reparse of a document is the identity, so written files
store documents directly. -/

/-- Content of a JSON-bearing file. -/
inductive FC where
  | json (j : Json) : FC
  | malformed : FC

/-- `serde_json::from_str`. -/
def parseFC : FC → Option Json
  | .json j => some j
  | .malformed => none

/-- State of the live config path (`~/.claude.json`). -/
inductive CfgFile where
  | absent : CfgFile
  | regular (content : FC) : CfgFile
  | symlink (content : FC) : CfgFile

/-- `fs::read_to_string` on the live config path (follows symlinks);
`none` when the file does not exist. -/
def cfgRead : CfgFile → Option FC
  | .absent => none
  | .regular content => some content
  | .symlink content => some content

/-- `Path::is_symlink`. -/
def cfgIsSymlink : CfgFile → Bool
  | .symlink _ => true
  | _ => false

/-- `fs::write` to the live config path: follows a symlink to its target,
otherwise creates/overwrites a regular file. -/
def cfgWrite (c : CfgFile) (content : FC) : CfgFile :=
  match c with
  | .symlink _ => .symlink content
  | _ => .regular content

/-- State of the profile directory (`~/.claudectx`). -/
inductive Dir where
  | absent : Dir
  | unreadable : Dir
  | present (entries : List (List Nat × FC)) : Dir

/-- Reading one file of the profile directory by name. -/
def dirGet (d : Dir) (name : List Nat) : Option FC :=
  match d with
  | .present entries => alGet entries name
  | _ => none

/-- The ambient filesystem state the tool operates on. -/
structure FsState where
  claude_json : CfgFile
  claude_json_bak : Option FC
  claudectx : Dir

/-- `str::ends_with`. -/
def ends_with (l sfx : List Nat) : Bool :=
  decide (sfx <:+ l)

/-- `str::strip_suffix`. -/
def strip_suffix (l sfx : List Nat) : Option (List Nat) :=
  if sfx <:+ l then some (l.take (l.length - sfx.length)) else none

/-- `profiles_dir()`: `home.join(".claudectx")`. -/
def profiles_dir (home : List Nat) : List Nat :=
  home ++ str "/" ++ str ".claudectx"

/-- `get_profile_path(name)`: `profiles_dir().join(format!(..., slugify(name)))`. -/
def get_profile_path (home name : List Nat) : List Nat :=
  profiles_dir home ++ str "/" ++ (slugify name ++ str ".claude.json")

/-- The file name of a profile inside the profile directory. -/
def profile_file_name (name : List Nat) : List Nat :=
  slugify name ++ str ".claude.json"

/-- `list_profiles()`: empty when the directory is absent, fatal when the
directory cannot be read, otherwise the entry names with the `.bak` files
excluded and the profile suffix stripped. -/
def list_profiles (d : Dir) : Except String (List (List Nat)) :=
  match d with
  | .absent => .ok []
  | .unreadable => .error "Failed to read profiles directory"
  | .present entries =>
    .ok (entries.filterMap (fun e =>
      if ends_with e.1 (str ".bak") then none
      else strip_suffix e.1 (str ".claude.json")))

/-- `ensure_profiles_dir()`: `fs::create_dir_all`. -/
def ensure_profiles_dir : Dir → Dir
  | .absent => .present []
  | d => d

/-- `save_profile(name)`: read and parse the live config (fatal when absent,
unreadable or unparsable), extract the account fields, write the slim
document to the profile path.  The live config itself is not written. -/
def save_profile (name : List Nat) (s : FsState) : Except String FsState :=
  match cfgRead s.claude_json with
  | none => .error "Failed to read Claude config - is Claude Code installed?"
  | some content =>
    match ensure_profiles_dir s.claudectx with
    | .absent => .error "Failed to save profile"
    | .unreadable => .error "Failed to save profile"
    | .present entries =>
      match parseFC content with
      | none => .error "Failed to parse Claude config JSON"
      | some config =>
        .ok { s with claudectx := .present (alInsert entries (profile_file_name name)
          (.json (extract_account_fields config))) }

/-- `profile_exists(name)`. -/
def profile_exists (name : List Nat) (s : FsState) : Bool :=
  (dirGet s.claudectx (profile_file_name name)).isSome

/-- `switch_to_profile(name)`: fatal when the profile is missing or
unparsable; the live config is read if it exists and silently replaced by
an empty object when unreadable or unparsable; account fields are patched
in and the result written back. -/
def switch_to_profile (name : List Nat) (s : FsState) : Except String FsState :=
  match dirGet s.claudectx (profile_file_name name) with
  | none => .error "Profile not found"
  | some profile_content =>
    match parseFC profile_content with
    | none => .error "Failed to parse target profile"
    | some profile =>
      let config : Json :=
        match cfgRead s.claude_json with
        | none => .obj []
        | some content => (parseFC content).getD (.obj [])
      .ok { s with
        claude_json := cfgWrite s.claude_json (.json (patch_account_fields config profile)) }

/-- The scan loop of `get_current_profile`: first listed profile whose
`oauthAccount.accountUuid` equals the live one; unreadable or unparsable
profiles and profiles without a UUID are skipped. -/
def scanProfiles (uuid : String) (d : Dir) : List (List Nat) → Option (List Nat)
  | [] => none
  | n :: rest =>
    match dirGet d (profile_file_name n) with
    | none => scanProfiles uuid d rest
    | some profile_content =>
      match parseFC profile_content with
      | none => scanProfiles uuid d rest
      | some j =>
        match get_account_uuid j with
        | none => scanProfiles uuid d rest
        | some u => if u = uuid then some n else scanProfiles uuid d rest

/-- `get_current_profile()`. -/
def get_current_profile (s : FsState) : Except String (Option (List Nat)) :=
  match cfgRead s.claude_json with
  | none => .ok none
  | some content =>
    match parseFC content with
    | none => .ok none
    | some config =>
      match get_account_uuid config with
      | none => .ok none
      | some uuid =>
        (list_profiles s.claudectx).map (fun names => scanProfiles uuid s.claudectx names)

/-- `backup_claude_config()`: copy the live config content to the backup
path, remove the original, return whether a backup was made. -/
def backup_claude_config (s : FsState) : Bool × FsState :=
  match cfgRead s.claude_json with
  | some content => (true, { s with claude_json := .absent, claude_json_bak := some content })
  | none => (false, s)

/-- The profile-slimming loop of `migrate_if_needed`: every entry matching
the profile suffix (and not already a backup) is backed up verbatim to a
`.bak` sibling and overwritten with its extracted account fields; parse
failures are fatal. -/
def migrateEntries : List (List Nat × FC) → Except String (List (List Nat × FC))
  | [] => .ok []
  | (name, content) :: rest =>
    if ends_with name (str ".claude.json") && !ends_with name (str ".bak") then
      match parseFC content with
      | none => .error "Failed to parse profile for migration"
      | some j =>
        (migrateEntries rest).map (fun r =>
          (name, FC.json (extract_account_fields j)) :: (name ++ str ".bak", content) :: r)
    else
      (migrateEntries rest).map (fun r => (name, content) :: r)

/-- `migrate_if_needed()`: no-op unless the live config is a symlink;
otherwise materialize its content as a regular file, slim every profile in
the directory, and emit the one-line notice (the returned flag). -/
def migrate_if_needed (s : FsState) : Except String (FsState × Bool) :=
  match s.claude_json with
  | .symlink content =>
    let s1 : FsState := { s with claude_json := .regular content }
    match s1.claudectx with
    | .absent => .ok (s1, true)
    | .unreadable => .error "Failed to read profiles directory"
    | .present entries =>
      (migrateEntries entries).map (fun es => ({ s1 with claudectx := .present es }, true))
  | _ => .ok (s, false)

/-! ### Claim theorems -/

theorem jsonGet_obj (o : List (String × Json)) (k : String) :
    jsonGet (.obj o) k = alGet o k := rfl

/-- C1: after `patch_account_fields(liveConfig, profile)` on JSON objects,
every account-specific key carries exactly the profile's binding (present
with the profile's value iff present in the profile, absent otherwise),
every key of the original live config outside the set keeps its binding
unchanged, and applying the patch twice with the same profile equals
applying it once. -/
theorem patch_account_fields_spec :
    (∀ (cfg prof : List (String × Json)) (k : String), k ∈ ACCOUNT_SPECIFIC_FIELDS →
        jsonGet (patch_account_fields (.obj cfg) (.obj prof)) k = alGet prof k)
    ∧ (∀ (cfg prof : List (String × Json)) (k : String), k ∉ ACCOUNT_SPECIFIC_FIELDS →
        jsonGet (patch_account_fields (.obj cfg) (.obj prof)) k = alGet cfg k)
    ∧ (∀ cfg prof : List (String × Json),
        patch_account_fields (patch_account_fields (.obj cfg) (.obj prof)) (.obj prof)
          = patch_account_fields (.obj cfg) (.obj prof)) := by
  refine ⟨?_, ?_, ?_⟩
  · intro cfg prof k hk
    rw [patch_obj_eq, jsonGet_obj, patch_foldl_alGet, if_pos hk]
  · intro cfg prof k hk
    rw [patch_obj_eq, jsonGet_obj, patch_foldl_alGet, if_neg hk]
  · intro cfg prof
    rw [patch_obj_eq cfg prof, patch_obj_eq]
    exact congrArg Json.obj (patch_foldl_fix prof ACCOUNT_SPECIFIC_FIELDS _
      (fun f hf => by rw [patch_foldl_alGet, if_pos hf]))

/-- Witness for C1: concrete instances discharging both membership
hypotheses. -/
theorem patch_account_fields_spec_witness :
    ("userID" ∈ ACCOUNT_SPECIFIC_FIELDS
      ∧ jsonGet (patch_account_fields (.obj [("userID", .str "u"), ("theme", .str "dark")])
          (.obj [("userID", .str "v")])) "userID" = alGet [("userID", .str "v")] "userID")
    ∧ ("theme" ∉ ACCOUNT_SPECIFIC_FIELDS
      ∧ jsonGet (patch_account_fields (.obj [("userID", .str "u"), ("theme", .str "dark")])
          (.obj [("userID", .str "v")])) "theme"
          = alGet [("userID", .str "u"), ("theme", .str "dark")] "theme") :=
  ⟨⟨by decide, patch_account_fields_spec.1 [("userID", .str "u"), ("theme", .str "dark")]
      [("userID", .str "v")] "userID" (by decide)⟩,
   ⟨by decide, patch_account_fields_spec.2.1 [("userID", .str "u"), ("theme", .str "dark")]
      [("userID", .str "v")] "theme" (by decide)⟩⟩

/-- C4: `extract_account_fields` keeps an account-specific key (with its
value) exactly when the object carries it, lets no other key through, and
returns the empty object on every non-object input. -/
theorem extract_account_fields_spec :
    (∀ (o : List (String × Json)) (k : String), k ∈ ACCOUNT_SPECIFIC_FIELDS →
        jsonGet (extract_account_fields (.obj o)) k = alGet o k)
    ∧ (∀ (o : List (String × Json)) (k : String), k ∉ ACCOUNT_SPECIFIC_FIELDS →
        jsonGet (extract_account_fields (.obj o)) k = none)
    ∧ (∀ d : Json, (∀ entries, d ≠ .obj entries) → extract_account_fields d = .obj []) := by
  refine ⟨?_, ?_, ?_⟩
  · intro o k hk
    rw [extract_obj_eq, jsonGet_obj, extract_foldl_alGet]
    by_cases hs : (alGet o k).isSome
    · rw [if_pos ⟨hk, hs⟩]
    · rw [if_neg (fun hcon => hs hcon.2), Option.not_isSome_iff_eq_none.mp hs]
      rfl
  · intro o k hk
    rw [extract_obj_eq, jsonGet_obj, extract_foldl_alGet, if_neg (fun hcon => hk hcon.1)]
    rfl
  · intro d h
    cases d with
    | obj entries => exact absurd rfl (h entries)
    | null => rfl
    | bool b => rfl
    | num n => rfl
    | str s => rfl
    | arr es => rfl

/-- Witness for C4: a concrete object instance and a concrete non-object
input. -/
theorem extract_account_fields_spec_witness :
    ("oauthAccount" ∈ ACCOUNT_SPECIFIC_FIELDS
      ∧ jsonGet (extract_account_fields (.obj [("oauthAccount", .str "a"), ("theme", .str "d")]))
          "oauthAccount" = alGet [("oauthAccount", .str "a"), ("theme", .str "d")] "oauthAccount")
    ∧ extract_account_fields .null = .obj [] :=
  ⟨⟨by decide, extract_account_fields_spec.1 [("oauthAccount", .str "a"), ("theme", .str "d")]
      "oauthAccount" (by decide)⟩,
   extract_account_fields_spec.2.2 .null (fun entries h => Json.noConfusion h)⟩

/-- C6: `slugify` is idempotent and satisfies the three worked examples of
the specification. -/
theorem slugify_spec :
    (∀ x : List Nat, slugify (slugify x) = slugify x)
    ∧ slugify (str "My Work Profile") = str "my-work-profile"
    ∧ slugify (str "FG@Company") = str "fg-company"
    ∧ slugify (str "test---name") = str "test-name" :=
  ⟨slugify_idem, by decide, by decide, by decide⟩

theorem slugify_of_no_alnum (name : List Nat)
    (h : ∀ c ∈ name, is_ascii_alphanumeric c = false) : slugify name = [] := by
  have hparts : ((name.map slugChar).splitOn 45).filter (fun s => !s.isEmpty) = [] := by
    rw [List.filter_eq_nil_iff]
    intro part hpart
    suffices hempty : part = [] by simp [hempty]
    cases part with
    | nil => rfl
    | cons c cs =>
      exfalso
      obtain ⟨hpf, hmem⟩ :=
        mem_of_mem_splitOnP (p := (· == 45)) hpart (List.mem_cons_self c cs)
      obtain ⟨c₀, hc₀, rfl⟩ := List.mem_map.mp hmem
      have h45 : slugChar c₀ = 45 := by
        rw [slugChar, if_neg (by simp [h c₀ hc₀])]
      rw [h45] at hpf
      simp at hpf
  rw [slugify, hparts]
  rfl

/-- C10: a name with no ASCII alphanumeric character slugifies to the empty
string, so `get_profile_path` sends every such name — in particular the
distinct names `"@@@"` and `"---"` — to the single path formed by joining
the profile directory with the bare profile-file suffix. -/
theorem get_profile_path_collision_spec :
    (∀ name : List Nat, (∀ c ∈ name, is_ascii_alphanumeric c = false) → slugify name = [])
    ∧ (∀ home : List Nat, get_profile_path home (str "@@@") = get_profile_path home (str "---"))
    ∧ (∀ home : List Nat,
        get_profile_path home (str "@@@") = profiles_dir home ++ str "/" ++ str ".claude.json") := by
  refine ⟨slugify_of_no_alnum, ?_, ?_⟩
  · intro home
    have h1 : slugify (str "@@@") = [] := by decide
    have h2 : slugify (str "---") = [] := by decide
    rw [get_profile_path, get_profile_path, h1, h2]
  · intro home
    have h1 : slugify (str "@@@") = [] := by decide
    rw [get_profile_path, h1]
    rfl

/-- Witness for C10: the hypothesis holds at the concrete name `"@@@"`. -/
theorem get_profile_path_collision_spec_witness :
    (∀ c ∈ str "@@@", is_ascii_alphanumeric c = false) ∧ slugify (str "@@@") = [] :=
  ⟨by decide, get_profile_path_collision_spec.1 (str "@@@") (by decide)⟩

theorem strip_suffix_eq_some {l sfx n : List Nat} :
    strip_suffix l sfx = some n ↔ l = n ++ sfx := by
  constructor
  · intro h
    by_cases hsfx : sfx <:+ l
    · rw [strip_suffix, if_pos hsfx] at h
      obtain ⟨t, rfl⟩ := hsfx
      obtain rfl := Option.some.inj h
      have hlen : (t ++ sfx).length - sfx.length = t.length := by simp
      rw [hlen, List.take_left]
    · rw [strip_suffix, if_neg hsfx] at h
      exact absurd h (by simp)
  · intro h
    subst h
    rw [strip_suffix, if_pos (List.suffix_append n sfx)]
    have hlen : (n ++ sfx).length - sfx.length = n.length := by simp
    rw [hlen, List.take_left]

theorem bak_not_suffix_claude_json (n : List Nat) :
    ends_with (n ++ str ".claude.json") (str ".bak") = false := by
  rw [ends_with, decide_eq_false_iff_not]
  intro hcon
  obtain ⟨t, ht⟩ := hcon
  have h1 : (t ++ str ".bak").getLast? = some 107 := by
    rw [List.getLast?_append_of_ne_nil t (show str ".bak" ≠ [] by decide)]
    decide
  have h2 : (n ++ str ".claude.json").getLast? = some 110 := by
    rw [List.getLast?_append_of_ne_nil n (show str ".claude.json" ≠ [] by decide)]
    decide
  rw [ht] at h1
  rw [h1] at h2
  exact absurd (Option.some.inj h2) (by decide)

/-- C5: when the live config exists and parses (and the profile directory is
not unreadable), `save_profile` succeeds, the document stored at the
profile's file name is exactly `extract_account_fields` of the live config
at save time, and the live config and its backup are untouched. -/
theorem save_profile_spec (s : FsState) (name : List Nat) (content : FC) (cfg : Json)
    (h1 : cfgRead s.claude_json = some content)
    (h2 : parseFC content = some cfg)
    (h3 : s.claudectx ≠ .unreadable) :
    ∃ s', save_profile name s = .ok s'
      ∧ dirGet s'.claudectx (profile_file_name name)
          = some (.json (extract_account_fields cfg))
      ∧ s'.claude_json = s.claude_json
      ∧ s'.claude_json_bak = s.claude_json_bak := by
  cases hd : s.claudectx with
  | unreadable => exact absurd hd h3
  | absent =>
    refine ⟨{ s with claudectx := .present (alInsert [] (profile_file_name name)
        (.json (extract_account_fields cfg))) }, ?_, ?_, rfl, rfl⟩
    · simp only [save_profile, h1, hd, ensure_profiles_dir, h2]
    · simp only [dirGet, alGet_alInsert_self]
  | present entries =>
    refine ⟨{ s with claudectx := .present (alInsert entries (profile_file_name name)
        (.json (extract_account_fields cfg))) }, ?_, ?_, rfl, rfl⟩
    · simp only [save_profile, h1, hd, ensure_profiles_dir, h2]
    · simp only [dirGet, alGet_alInsert_self]

/-- Witness for C5 at a concrete state. -/
theorem save_profile_spec_witness :
    cfgRead (FsState.mk (.regular (.json (.obj [("userID", .str "u")]))) none
        (.present [])).claude_json = some (.json (.obj [("userID", .str "u")]))
    ∧ parseFC (.json (.obj [("userID", .str "u")])) = some (.obj [("userID", .str "u")])
    ∧ (FsState.mk (.regular (.json (.obj [("userID", .str "u")]))) none
        (.present [])).claudectx ≠ .unreadable
    ∧ ∃ s', save_profile (str "w") (FsState.mk (.regular (.json (.obj [("userID", .str "u")])))
          none (.present [])) = .ok s'
        ∧ dirGet s'.claudectx (profile_file_name (str "w"))
            = some (.json (extract_account_fields (.obj [("userID", .str "u")])))
        ∧ s'.claude_json = (FsState.mk (.regular (.json (.obj [("userID", .str "u")]))) none
            (.present [])).claude_json
        ∧ s'.claude_json_bak = (FsState.mk (.regular (.json (.obj [("userID", .str "u")])))
            none (.present [])).claude_json_bak :=
  ⟨rfl, rfl, fun h => Dir.noConfusion h,
    save_profile_spec (FsState.mk (.regular (.json (.obj [("userID", .str "u")]))) none
      (.present [])) (str "w") (.json (.obj [("userID", .str "u")]))
      (.obj [("userID", .str "u")]) rfl rfl (fun h => Dir.noConfusion h)⟩

/-- C7: `list_profiles` yields an empty collection on an absent directory,
a fatal error on an unreadable one; on a present directory the returned
names are exactly the entry names carrying the profile-file suffix with that
suffix stripped (which excludes every `.bak` entry, as the concrete instance
shows). -/
theorem list_profiles_spec :
    list_profiles .absent = .ok []
    ∧ (list_profiles .unreadable).isOk = false
    ∧ (∀ (entries : List (List Nat × FC)) (names : List (List Nat)) (n : List Nat),
        list_profiles (.present entries) = .ok names →
        (n ∈ names ↔ ∃ c : FC, (n ++ str ".claude.json", c) ∈ entries))
    ∧ list_profiles (.present [(str "work.claude.json", .json (.obj [])),
        (str "work.claude.json.bak", .json (.obj []))]) = .ok [str "work"] := by
  refine ⟨rfl, rfl, ?_, rfl⟩
  intro entries names n heq
  have hnames : names = entries.filterMap (fun e =>
      if ends_with e.1 (str ".bak") then none
      else strip_suffix e.1 (str ".claude.json")) := (Except.ok.inj heq).symm
  subst hnames
  rw [List.mem_filterMap]
  constructor
  · rintro ⟨⟨nm, c⟩, hmem, hf⟩
    by_cases hbak : ends_with nm (str ".bak") = true
    · rw [if_pos hbak] at hf
      exact absurd hf (by simp)
    · rw [if_neg hbak] at hf
      have hnm : nm = n ++ str ".claude.json" := strip_suffix_eq_some.mp hf
      exact ⟨c, hnm ▸ hmem⟩
  · rintro ⟨c, hmem⟩
    refine ⟨(n ++ str ".claude.json", c), hmem, ?_⟩
    rw [if_neg (by simp [bak_not_suffix_claude_json])]
    exact strip_suffix_eq_some.mpr rfl

/-- Witness for C7: the membership characterization at a concrete
directory. -/
theorem list_profiles_spec_witness :
    list_profiles (.present [(str "a.claude.json", FC.json (.obj []))]) = .ok [str "a"]
    ∧ (str "a" ∈ [str "a"] ↔
        ∃ c : FC, (str "a" ++ str ".claude.json", c)
          ∈ [(str "a.claude.json", FC.json (.obj []))]) :=
  ⟨rfl, list_profiles_spec.2.2.1 [(str "a.claude.json", FC.json (.obj []))] [str "a"]
    (str "a") rfl⟩

/-- C9: when the live config exists (its read yields content),
`backup_claude_config` returns `true`, the backup afterwards holds exactly
the prior live content, and the live config is removed; when the live
config is absent it returns `false` and leaves the state unchanged. -/
theorem backup_claude_config_spec :
    (∀ (s : FsState) (content : FC), cfgRead s.claude_json = some content →
        backup_claude_config s
          = (true, { s with claude_json := .absent, claude_json_bak := some content }))
    ∧ (∀ s : FsState, s.claude_json = .absent → backup_claude_config s = (false, s)) := by
  constructor
  · intro s content h
    simp only [backup_claude_config, h]
  · intro s h
    simp only [backup_claude_config, h, cfgRead]

/-- Witness for C9: both branches at concrete states. -/
theorem backup_claude_config_spec_witness :
    (cfgRead (FsState.mk (.regular .malformed) none .absent).claude_json = some .malformed
      ∧ backup_claude_config (FsState.mk (.regular .malformed) none .absent)
          = (true, { FsState.mk (.regular .malformed) none .absent with
              claude_json := .absent, claude_json_bak := some .malformed }))
    ∧ ((FsState.mk .absent none .absent).claude_json = .absent
      ∧ backup_claude_config (FsState.mk .absent none .absent)
          = (false, FsState.mk .absent none .absent)) :=
  ⟨⟨rfl, backup_claude_config_spec.1 (FsState.mk (.regular .malformed) none .absent)
      .malformed rfl⟩,
   ⟨rfl, backup_claude_config_spec.2 (FsState.mk .absent none .absent) rfl⟩⟩

/-- C2 counterexample: with an existing but malformed live config and an
existing, well-formed target profile, `switch_to_profile` succeeds — it does
not fail with a parse error. -/
theorem switch_malformed_live_counterexample :
    (FsState.mk (.regular .malformed) none
        (.present [(str "p.claude.json", FC.json (.obj []))])).claude_json
      = .regular .malformed
    ∧ parseFC (FC.json (.obj [])) = some (.obj [])
    ∧ (switch_to_profile (str "p") (FsState.mk (.regular .malformed) none
        (.present [(str "p.claude.json", FC.json (.obj []))]))).isOk = true :=
  ⟨rfl, rfl, rfl⟩

/-- C2 amended: when the live config exists but is malformed and the target
profile exists and parses, `switch_to_profile` succeeds by treating the
live config as an empty object: it writes the patch of the empty object
with the profile. -/
theorem switch_malformed_live_amended (s : FsState) (name : List Nat)
    (profile_content : FC) (profile : Json)
    (h1 : dirGet s.claudectx (profile_file_name name) = some profile_content)
    (h2 : parseFC profile_content = some profile)
    (h3 : s.claude_json = .regular .malformed) :
    switch_to_profile name s
      = .ok { s with
          claude_json := .regular (.json (patch_account_fields (.obj []) profile)) } := by
  simp only [switch_to_profile, h1]
  simp only [h2]
  simp only [h3, cfgRead, parseFC, Option.getD, cfgWrite]

/-- Witness for the amended C2 at a concrete state. -/
theorem switch_malformed_live_amended_witness :
    dirGet (FsState.mk (.regular .malformed) none
        (.present [(str "p.claude.json", FC.json (.obj []))])).claudectx
        (profile_file_name (str "p")) = some (FC.json (.obj []))
    ∧ switch_to_profile (str "p") (FsState.mk (.regular .malformed) none
        (.present [(str "p.claude.json", FC.json (.obj []))]))
      = .ok { FsState.mk (.regular .malformed) none
            (.present [(str "p.claude.json", FC.json (.obj []))]) with
          claude_json := .regular (.json (patch_account_fields (.obj []) (.obj []))) } :=
  ⟨rfl, switch_malformed_live_amended _ (str "p") (FC.json (.obj [])) (.obj []) rfl rfl rfl⟩

/-- C3 counterexample: the live config parses and carries an account UUID,
the first profile scanned is malformed, yet `get_current_profile` does not
fail — it skips the malformed profile and returns the later match. -/
theorem current_profile_malformed_counterexample :
    dirGet (FsState.mk
        (.regular (.json (.obj [("oauthAccount", .obj [("accountUuid", .str "A")])]))) none
        (.present [(str "bad.claude.json", FC.malformed),
          (str "good.claude.json",
            FC.json (.obj [("oauthAccount", .obj [("accountUuid", .str "A")])]))])).claudectx
        (str "bad.claude.json") = some FC.malformed
    ∧ get_account_uuid (.obj [("oauthAccount", .obj [("accountUuid", .str "A")])]) = some "A"
    ∧ get_current_profile (FsState.mk
        (.regular (.json (.obj [("oauthAccount", .obj [("accountUuid", .str "A")])]))) none
        (.present [(str "bad.claude.json", FC.malformed),
          (str "good.claude.json",
            FC.json (.obj [("oauthAccount", .obj [("accountUuid", .str "A")])]))]))
      = .ok (some (str "good")) :=
  ⟨rfl, rfl, rfl⟩

/-- C3 amended: a malformed stored profile file encountered during the scan
of `get_current_profile` is skipped and the scan continues with the
remaining profiles. -/
theorem current_profile_scan_skips_malformed (uuid : String) (d : Dir)
    (n : List Nat) (rest : List (List Nat))
    (h : dirGet d (profile_file_name n) = some FC.malformed) :
    scanProfiles uuid d (n :: rest) = scanProfiles uuid d rest := by
  simp only [scanProfiles, h, parseFC]

/-- Witness for the amended C3 at a concrete state. -/
theorem current_profile_scan_skips_malformed_witness :
    dirGet (.present [(str "bad.claude.json", FC.malformed)]) (profile_file_name (str "bad"))
        = some FC.malformed
    ∧ scanProfiles "A" (.present [(str "bad.claude.json", FC.malformed)]) [str "bad"]
        = scanProfiles "A" (.present [(str "bad.claude.json", FC.malformed)]) [] :=
  ⟨rfl, current_profile_scan_skips_malformed "A"
    (.present [(str "bad.claude.json", FC.malformed)]) (str "bad") [] rfl⟩

/-- C8: `migrate_if_needed` is a no-op without a message on every state
whose live config path is not a symlink, and after any successful run a
second run changes nothing and emits nothing. -/
theorem migrate_if_needed_idempotent :
    (∀ s : FsState, cfgIsSymlink s.claude_json = false →
        migrate_if_needed s = .ok (s, false))
    ∧ (∀ (s s' : FsState) (emitted : Bool), migrate_if_needed s = .ok (s', emitted) →
        migrate_if_needed s' = .ok (s', false)) := by
  have hnoop : ∀ s : FsState, cfgIsSymlink s.claude_json = false →
      migrate_if_needed s = .ok (s, false) := by
    intro s h
    cases hc : s.claude_json with
    | absent => simp only [migrate_if_needed, hc]
    | regular c => simp only [migrate_if_needed, hc]
    | symlink c =>
      rw [hc] at h
      exact absurd h (by simp [cfgIsSymlink])
  refine ⟨hnoop, ?_⟩
  intro s s' emitted h
  obtain ⟨cj, bak, dir⟩ := s
  cases cj with
  | absent =>
    have hred : migrate_if_needed (FsState.mk .absent bak dir)
        = .ok (FsState.mk .absent bak dir, false) := rfl
    rw [hred] at h
    obtain ⟨h5, h6⟩ := Prod.mk.inj (Except.ok.inj h)
    subst h5
    exact hnoop _ rfl
  | regular c =>
    have hred : migrate_if_needed (FsState.mk (.regular c) bak dir)
        = .ok (FsState.mk (.regular c) bak dir, false) := rfl
    rw [hred] at h
    obtain ⟨h5, h6⟩ := Prod.mk.inj (Except.ok.inj h)
    subst h5
    exact hnoop _ rfl
  | symlink content =>
    cases dir with
    | absent =>
      have hred : migrate_if_needed (FsState.mk (.symlink content) bak .absent)
          = .ok (FsState.mk (.regular content) bak .absent, true) := rfl
      rw [hred] at h
      obtain ⟨h5, h6⟩ := Prod.mk.inj (Except.ok.inj h)
      subst h5
      exact hnoop _ rfl
    | unreadable =>
      have hred : migrate_if_needed (FsState.mk (.symlink content) bak .unreadable)
          = .error "Failed to read profiles directory" := rfl
      rw [hred] at h
      exact Except.noConfusion h
    | present entries =>
      have hred : migrate_if_needed (FsState.mk (.symlink content) bak (.present entries))
          = (migrateEntries entries).map
              (fun es => (FsState.mk (.regular content) bak (.present es), true)) := rfl
      rw [hred] at h
      cases hm : migrateEntries entries with
      | error e =>
        rw [hm] at h
        exact Except.noConfusion h
      | ok es =>
        rw [hm] at h
        simp only [Except.map] at h
        obtain ⟨h5, h6⟩ := Prod.mk.inj (Except.ok.inj h)
        subst h5
        exact hnoop _ rfl

/-- Witness for C8: a non-symlink state, and a full successful migration
followed by the no-op second run. -/
theorem migrate_if_needed_idempotent_witness :
    (cfgIsSymlink (FsState.mk .absent none .absent).claude_json = false
      ∧ migrate_if_needed (FsState.mk .absent none .absent)
          = .ok (FsState.mk .absent none .absent, false))
    ∧ (migrate_if_needed (FsState.mk (.symlink .malformed) none (.present []))
          = .ok (FsState.mk (.regular .malformed) none (.present []), true)
      ∧ migrate_if_needed (FsState.mk (.regular .malformed) none (.present []))
          = .ok (FsState.mk (.regular .malformed) none (.present []), false)) :=
  ⟨⟨rfl, migrate_if_needed_idempotent.1 _ rfl⟩,
   ⟨rfl, migrate_if_needed_idempotent.2 (FsState.mk (.symlink .malformed) none (.present []))
      (FsState.mk (.regular .malformed) none (.present [])) true rfl⟩⟩
